import Mathlib

/-!
Verification of the MedTranslation core: the versioned term store
(src/data/dictionaries/medical_dictionary.py), its fuzzy-similarity lookup,
and the translation validator
(src/medical_translation/translation_validator.py), shallowly embedded.

Modelling conventions:
* Python str is Lean String; helper operations work on List Char.
* Python floats (confidence scores, similarity ratios) are modelled as ℚ.
* Each datetime.now() call is modelled by an explicit Nat timestamp argument,
  one argument per now() call, in source order.
* Python dicts keep insertion order; the store is an ordered association list.
* Code whose uncaught exceptions can escape is modelled with Option.
-/

/-- Whitespace characters recognised by Python str.strip and by the regex
class item backslash-s (ASCII range; non-ASCII Unicode spaces lie outside the
character domain this embedding models). -/
def pySpace (c : Char) : Bool :=
  c = ' ' || c = '\t' || c = '\n' || c = '\r' || c = '\x0b' || c = '\x0c'

/-- Lower-case Vietnamese letters exactly as listed in the source
(translation_validator.py line 90; the same letters, followed by Đ, form the
regex whitelist class of line 122). -/
def vietLowerStr : String :=
  "àáảãạăắằẳẵặâấầẩẫậèéẻẽẹêếềểễệìíỉĩịòóỏõọôốồổỗộơớờởỡợùúủũụưứừửữựỳýỷỹỵđ"

/-- Upper-case counterparts of vietLowerStr, in the same order. -/
def vietUpperStr : String :=
  "ÀÁẢÃẠĂẮẰẲẴẶÂẤẦẨẪẬÈÉẺẼẸÊẾỀỂỄỆÌÍỈĨỊÒÓỎÕỌÔỐỒỔỖỘƠỚỜỞỠỢÙÚỦŨỤƯỨỪỬỮỰỲÝỶỸỴĐ"

/-- Case-mapping pairs (upper, lower) modelling Python str.lower on the
character domain of this program: ASCII letters plus the Vietnamese letters. -/
def lowerPairs : List (Char × Char) :=
  ((List.range 26).map (fun i => (Char.ofNat (65 + i), Char.ofNat (97 + i)))) ++
    vietUpperStr.toList.zip vietLowerStr.toList

/-- Lookup in a list of case pairs. -/
def pairLookup (c : Char) : List (Char × Char) → Option Char
  | [] => none
  | (a, b) :: t => if a == c then some b else pairLookup c t

/-- Python str.lower, one character. -/
def lowerChar (c : Char) : Char :=
  match pairLookup c lowerPairs with
  | some d => d
  | none => c

/-- Python str.lower. -/
def lowerStr (s : String) : String := String.mk (s.toList.map lowerChar)

/-- Python str.strip on a character list. -/
def stripList (l : List Char) : List Char :=
  ((l.dropWhile pySpace).reverse.dropWhile pySpace).reverse

/-- Python str.strip. -/
def stripStr (s : String) : String := String.mk (stripList s.toList)

/-- One entry of a term's version history (the dict literals built at
medical_dictionary.py lines 76-81 and 121-126). -/
structure VersionEntry where
  vietnamese : String
  confidence : ℚ
  date : Nat
  source : String
deriving DecidableEq, Repr

/-- A stored term record (term_data, medical_dictionary.py lines 69-82). -/
structure TermRecord where
  vietnamese : String
  category : String
  source : String
  confidence : ℚ
  added_date : Nat
  last_updated : Nat
  versions : List VersionEntry
deriving DecidableEq, Repr

/-- The in-memory store self.terms: a Python dict from normalised English key
to record, modelled as an ordered association list (Python dicts preserve
insertion order, which the similarity lookup iterates). -/
abbrev Store := List (String × TermRecord)

/-- Python dict lookup self.terms.get(k). -/
def storeGet (s : Store) (k : String) : Option TermRecord :=
  (s.find? (fun p => p.1 == k)).map Prod.snd

/-- Python dict assignment self.terms[k] = v: replaces in place when the key
is present (keeping its position), otherwise appends. -/
def storeSet (s : Store) (k : String) (v : TermRecord) : Store :=
  if s.any (fun p => p.1 == k) then
    s.map (fun p => if p.1 == k then (k, v) else p)
  else s ++ [(k, v)]

/-- Iteration order of self.terms.keys(). -/
def storeKeys (s : Store) : List String := s.map Prod.fst

/-- Key normalisation performed by every store operation:
english.lower().strip(). -/
def normKey (e : String) : String := stripStr (lowerStr e)

/-- MedicalDictionary.add_term (medical_dictionary.py lines 46-91).
Timestamps t1 t2 t3 are the three datetime.now() reads in source order:
added_date (line 74), last_updated (line 75), the version entry's date
(line 79). _save_dictionary only logs failures, so it does not affect the
in-memory state; with string arguments the body cannot raise, hence the
result is always true paired with the new store. -/
def addTerm (s : Store) (english vietnamese category source : String)
    (confidence : ℚ) (t1 t2 t3 : Nat) : Bool × Store :=
  let e := normKey english
  let v := stripStr vietnamese
  let entry : VersionEntry :=
    { vietnamese := v, confidence := confidence, date := t3, source := source }
  (true, storeSet s e
    { vietnamese := v, category := category, source := source,
      confidence := confidence, added_date := t1, last_updated := t2,
      versions := [entry] })

/-- MedicalDictionary.update_term (medical_dictionary.py lines 93-140).
tv is the datetime.now() read stored in the appended version entry
(line 124); tu is the later read stored in last_updated (line 131). -/
def updateTerm (s : Store) (english vietnamese source : String)
    (confidence : ℚ) (tv tu : Nat) : Bool × Store :=
  let e := normKey english
  let v := stripStr vietnamese
  match storeGet s e with
  | none => (false, s)
  | some r =>
      let entry : VersionEntry :=
        { vietnamese := v, confidence := confidence, date := tv,
          source := source }
      (true, storeSet s e
        { r with
          versions := r.versions ++ [entry],
          vietnamese := v, confidence := confidence, last_updated := tu,
          source := source })

/-- MedicalDictionary.get_translation (medical_dictionary.py lines 142-153). -/
def getTranslation (s : Store) (english : String) : Option TermRecord :=
  storeGet s (normKey english)

/- ## Association-list lemmas -/

theorem storeGet_storeSet_self (s : Store) (k : String) (v : TermRecord) :
    storeGet (storeSet s k v) k = some v := by
  unfold storeGet storeSet
  by_cases h : s.any (fun p => p.1 == k)
  · rw [if_pos h]
    have hpred : ((fun p : String × TermRecord => p.1 == k) ∘
        (fun p => if p.1 == k then (k, v) else p)) =
        (fun p : String × TermRecord => p.1 == k) := by
      funext p
      by_cases hp : p.1 = k
      · simp [hp]
      · simp [hp]
    rw [List.find?_map, hpred]
    rcases List.any_eq_true.mp h with ⟨p0, hp0mem, hp0⟩
    cases hf : s.find? (fun p => p.1 == k) with
    | none =>
      exact absurd hp0 (by simpa using List.find?_eq_none.mp hf p0 hp0mem)
    | some q =>
      have hq1 : q.1 = k := by
        have := List.find?_some hf
        simpa using this
      simp [hq1]
  · rw [if_neg h, List.find?_append]
    have h1 : s.find? (fun p => p.1 == k) = none := by
      rw [List.find?_eq_none]
      intro x hx hpx
      exact h (List.any_eq_true.mpr ⟨x, hx, hpx⟩)
    rw [h1]
    simp

theorem storeGet_storeSet_other (s : Store) (k k' : String) (v : TermRecord)
    (hkk : k' ≠ k) : storeGet (storeSet s k v) k' = storeGet s k' := by
  unfold storeGet storeSet
  by_cases h : s.any (fun p => p.1 == k)
  · rw [if_pos h]
    have hpred : ((fun p : String × TermRecord => p.1 == k') ∘
        (fun p => if p.1 == k then (k, v) else p)) =
        (fun p : String × TermRecord => p.1 == k') := by
      funext p
      by_cases hp : p.1 = k
      · simp [hp]
      · simp [hp]
    rw [List.find?_map, hpred]
    cases hf : s.find? (fun p => p.1 == k') with
    | none => simp
    | some q =>
      have hq1 : q.1 = k' := by
        have := List.find?_some hf
        simpa using this
      have hqk : ¬(q.1 = k) := by
        simp [hq1]
        exact hkk
      simp [hqk]
  · rw [if_neg h, List.find?_append]
    have h2 : List.find? (fun p : String × TermRecord => p.1 == k')
        [(k, v)] = none := by
      rw [List.find?_cons_of_neg _ (by simpa using fun hh : k = k' => hkk hh.symm)]
      rfl
    rw [h2]
    simp

/- ## Normalisation lemmas -/

theorem lowerPairs_no_space :
    ∀ p ∈ lowerPairs, pySpace p.1 = false ∧ pySpace p.2 = false := by decide

theorem pairLookup_mem :
    ∀ (l : List (Char × Char)) (c d : Char),
      pairLookup c l = some d → (c, d) ∈ l := by
  intro l
  induction l with
  | nil => intro c d h; simp [pairLookup] at h
  | cons p t ih =>
    intro c d h
    rw [show p = (p.1, p.2) from rfl, pairLookup] at h
    by_cases hc : p.1 = c
    · rw [if_pos (by simpa using hc)] at h
      have hd : p.2 = d := by simpa using h
      rw [← hc, ← hd]
      exact List.mem_cons_self _ _
    · rw [if_neg (by simpa using hc)] at h
      right
      exact ih c d h

theorem pySpace_lowerChar (c : Char) : pySpace (lowerChar c) = pySpace c := by
  unfold lowerChar
  cases h : pairLookup c lowerPairs with
  | none => rfl
  | some d =>
    have hm : (c, d) ∈ lowerPairs := pairLookup_mem lowerPairs c d h
    have := lowerPairs_no_space (c, d) hm
    simp [this.1, this.2]

theorem stripList_map_lower (l : List Char) :
    stripList (l.map lowerChar) = (stripList l).map lowerChar := by
  have hfun : (pySpace ∘ lowerChar) = pySpace := by
    funext c; exact pySpace_lowerChar c
  unfold stripList
  rw [List.dropWhile_map, hfun, ← List.map_reverse, List.dropWhile_map, hfun,
    ← List.map_reverse]

theorem normKey_eq_lower_strip (e : String) :
    normKey e = lowerStr (stripStr e) := by
  unfold normKey stripStr lowerStr
  apply congrArg
  exact stripList_map_lower e.toList

/- ## C1 -/

/-- C1: a call add_term(E, V, category, source, confidence) succeeds, stores
under the normalised key lower(trim(E)) a record whose current translation is
trim(V) and whose version history is the single fresh entry — replacing
whatever record was previously stored under that key together with its whole
version history — and get_translation(E) afterwards returns that new
record. -/
theorem C1_add_term_overwrites (s : Store)
    (E V cat src : String) (conf : ℚ) (t1 t2 t3 : Nat) :
    (addTerm s E V cat src conf t1 t2 t3).1 = true ∧
    storeGet (addTerm s E V cat src conf t1 t2 t3).2 (lowerStr (stripStr E)) =
      some { vietnamese := stripStr V, category := cat, source := src,
             confidence := conf, added_date := t1, last_updated := t2,
             versions := [{ vietnamese := stripStr V, confidence := conf,
                            date := t3, source := src }] } ∧
    getTranslation (addTerm s E V cat src conf t1 t2 t3).2 E =
      some { vietnamese := stripStr V, category := cat, source := src,
             confidence := conf, added_date := t1, last_updated := t2,
             versions := [{ vietnamese := stripStr V, confidence := conf,
                            date := t3, source := src }] } := by
  refine ⟨rfl, ?_, ?_⟩
  · rw [← normKey_eq_lower_strip]
    exact storeGet_storeSet_self s (normKey E) _
  · unfold getTranslation
    exact storeGet_storeSet_self s (normKey E) _

/- ## C9 -/

/-- C9: update_term on a key whose normalised form is absent returns false
and leaves the store completely unchanged. -/
theorem C9_update_absent_fails_closed (s : Store) (e v src : String)
    (conf : ℚ) (tv tu : Nat)
    (h : storeGet s (normKey e) = none) :
    updateTerm s e v src conf tv tu = (false, s) := by
  unfold updateTerm
  simp only [h]

/-- C9 witness: updating the key "nonexistent" in the empty store fails and
creates nothing. -/
theorem C9_update_absent_fails_closed_witness :
    storeGet ([] : Store) (normKey "nonexistent") = none ∧
    updateTerm ([] : Store) "nonexistent" "x" "manual" 1 0 0 =
      (false, ([] : Store)) :=
  ⟨rfl, C9_update_absent_fails_closed [] "nonexistent" "x" "manual" 1 0 0 rfl⟩

/- ## C2 -/

/-- C2: after add_term(K,V1), update_term(K,V2) and update_term(K,V3), the
record holds exactly the three version entries [V1,V2,V3] in order, current
translation V3, and a created-at timestamp still equal to the first
insertion's; moreover update_term never removes or modifies the existing
version entries of any record — it only ever appends. -/
theorem C2_update_appends (s : Store) (K V1 V2 V3 cat s1 s2 s3 : String)
    (c1 c2 c3 : ℚ) (ta1 ta2 ta3 tb1 tb2 tc1 tc2 : Nat) :
    (storeGet (updateTerm (updateTerm (addTerm s K V1 cat s1 c1 ta1 ta2 ta3).2
        K V2 s2 c2 tb1 tb2).2 K V3 s3 c3 tc1 tc2).2 (normKey K) =
      some { vietnamese := stripStr V3, category := cat, source := s3,
             confidence := c3, added_date := ta1, last_updated := tc2,
             versions :=
               [{ vietnamese := stripStr V1, confidence := c1, date := ta3,
                  source := s1 },
                { vietnamese := stripStr V2, confidence := c2, date := tb1,
                  source := s2 },
                { vietnamese := stripStr V3, confidence := c3, date := tc1,
                  source := s3 }] }) ∧
    (∀ (s' : Store) (e v src : String) (conf : ℚ) (tv tu : Nat)
        (k : String) (r : TermRecord), storeGet s' k = some r →
      ∃ r', storeGet (updateTerm s' e v src conf tv tu).2 k = some r' ∧
        ∃ tail, r'.versions = r.versions ++ tail) := by
  constructor
  · simp [addTerm, updateTerm, storeGet_storeSet_self]
  · intro s' e v src conf tv tu k r hr
    unfold updateTerm
    cases hg : storeGet s' (normKey e) with
    | none =>
      simp only [hg]
      exact ⟨r, hr, [], by simp⟩
    | some r0 =>
      simp only [hg]
      by_cases hk : k = normKey e
      · subst hk
        have hrr : r = r0 := by
          rw [hr] at hg
          exact Option.some_inj.mp hg
        refine ⟨_, storeGet_storeSet_self s' (normKey e) _, ?_⟩
        refine ⟨[{ vietnamese := stripStr v, confidence := conf, date := tv, source := src }], ?_⟩
        simp [hrr]
      · refine ⟨r, ?_, [], by simp⟩
        rw [storeGet_storeSet_other s' (normKey e) k _ hk]
        exact hr

/-- C2 witness: a concrete add followed by two updates, and a concrete
update whose result extends the prior version list. -/
theorem C2_update_appends_witness :
    (storeGet (updateTerm (updateTerm
        (addTerm [] "K" "v1" "general" "m" 1 0 1 2).2
        "K" "v2" "m" 1 3 4).2 "K" "v3" "m" 1 5 6).2 (normKey "K") =
      some { vietnamese := "v3", category := "general", source := "m",
             confidence := 1, added_date := 0, last_updated := 6,
             versions :=
               [{ vietnamese := "v1", confidence := 1, date := 2,
                  source := "m" },
                { vietnamese := "v2", confidence := 1, date := 3,
                  source := "m" },
                { vietnamese := "v3", confidence := 1, date := 5,
                  source := "m" }] }) ∧
    (∃ r', storeGet (updateTerm
        (addTerm [] "K" "v1" "general" "m" 1 0 1 2).2
        "K" "v2" "m" 1 3 4).2 "k" = some r' ∧
      ∃ tail, r'.versions =
        [({ vietnamese := "v1", confidence := 1, date := 2,
            source := "m" } : VersionEntry)] ++ tail) := by
  constructor
  · have h := (C2_update_appends [] "K" "v1" "v2" "v3" "general" "m" "m" "m"
      1 1 1 0 1 2 3 4 5 6).1
    simpa using h
  · exact (C2_update_appends [] "K" "v1" "v2" "v3" "general" "m" "m" "m"
      1 1 1 0 1 2 3 4 5 6).2
      (addTerm [] "K" "v1" "general" "m" 1 0 1 2).2 "K" "v2" "m" 1 3 4 "k"
      { vietnamese := "v1", category := "general", source := "m",
        confidence := 1, added_date := 0, last_updated := 1,
        versions := [{ vietnamese := "v1", confidence := 1, date := 2,
                       source := "m" }] }
      (by decide)

/- ## CSV rows and the importer -/

/-- One data row as csv.DictReader yields it to import_csv
(medical_dictionary.py lines 203-226). A required cell (English,
Vietnamese) is none when the row is short and DictReader filled it with
Python None; category is none when the Category column is absent, so that
row.get falls back to "general" (a None category cell from a short row,
which Python would store as-is, is identified with that default here — no
claim involves the stored category). The confidence cell is modelled with its
parse outcome: none when the Confidence column is absent (the 1.0 default
applies), some none when a value is present but float() raises on it, and
some (some q) when float() parses it to q. t1 t2 t3 are the datetime.now()
reads of the add_term call made for this row. -/
structure Row where
  english : Option String
  vietnamese : Option String
  category : Option String
  confCell : Option (Option ℚ)
  t1 : Nat
  t2 : Nat
  t3 : Nat
deriving DecidableEq, Repr

/-- The add_term call made for one row, given an already-parsed confidence.
When the English or Vietnamese cell is Python None, add_term's own
try/except catches the AttributeError raised by .lower()/.strip() and
returns false with the store unchanged, so only that row fails. -/
def importRow (s : Store) (src : String) (r : Row) (conf : ℚ) : Store :=
  match r.english, r.vietnamese with
  | some e, some v =>
      (addTerm s e v (r.category.getD "general") src conf r.t1 r.t2 r.t3).2
  | _, _ => s

/-- MedicalDictionary.import_csv (lines 203-226) over already-read rows.
float(row.get(Confidence, 1.0)) runs in the loop body, outside add_term's
try/except: when the cell is present but unparseable, the ValueError
propagates to the except wrapping the whole loop, which logs and returns —
that row and every later row are dropped while earlier rows stay. -/
def importCsv (s : Store) (src : String) : List Row → Store
  | [] => s
  | r :: rest =>
    match r.confCell with
    | some none => s
    | some (some q) => importCsv (importRow s src r q) src rest
    | none => importCsv (importRow s src r 1) src rest

/- ## Reachable store states -/

/-- Store states reachable from the empty store through add_term,
update_term and import_csv calls; each constructor carries the
datetime.now() reads of the call in source order, constrained only by clock
monotonicity within the call. -/
inductive Reachable : Store → Prop
  | empty : Reachable []
  | add {s} (e v cat src : String) (conf : ℚ) (t1 t2 t3 : Nat) :
      Reachable s → t1 ≤ t2 → t2 ≤ t3 →
      Reachable (addTerm s e v cat src conf t1 t2 t3).2
  | update {s} (e v src : String) (conf : ℚ) (tv tu : Nat) :
      Reachable s → tv ≤ tu →
      Reachable (updateTerm s e v src conf tv tu).2
  | imp {s} (src : String) (rows : List Row) :
      Reachable s → (∀ r ∈ rows, r.t1 ≤ r.t2 ∧ r.t2 ≤ r.t3) →
      Reachable (importCsv s src rows)

/-- Reachable store states in the special case where the clock never
advances within a single mutating call: all datetime.now() reads of one
call return the same value. -/
inductive ReachableEq : Store → Prop
  | empty : ReachableEq []
  | add {s} (e v cat src : String) (conf : ℚ) (t : Nat) :
      ReachableEq s → ReachableEq (addTerm s e v cat src conf t t t).2
  | update {s} (e v src : String) (conf : ℚ) (t : Nat) :
      ReachableEq s → ReachableEq (updateTerm s e v src conf t t).2
  | imp {s} (src : String) (rows : List Row) :
      ReachableEq s → (∀ r ∈ rows, r.t1 = r.t2 ∧ r.t2 = r.t3) →
      ReachableEq (importCsv s src rows)

/- ## Record synchronisation invariants -/

/-- Claim C3's non-timestamp part for one record: a non-empty version
history whose last entry carries the record's current translation,
confidence and source. -/
def recSynced (r : TermRecord) : Prop :=
  ∃ e, r.versions.getLast? = some e ∧ r.vietnamese = e.vietnamese ∧
    r.confidence = e.confidence ∧ r.source = e.source

/-- Claim C3's timestamp part for one record: last_updated equals the date
of the last version entry. -/
def recTimeSynced (r : TermRecord) : Prop :=
  ∃ e, r.versions.getLast? = some e ∧ r.last_updated = e.date

def storeSynced (s : Store) : Prop := ∀ p ∈ s, recSynced p.2

def storeTimeSynced (s : Store) : Prop := ∀ p ∈ s, recTimeSynced p.2

theorem mem_storeSet {s : Store} {k : String} {v : TermRecord}
    {p : String × TermRecord} :
    p ∈ storeSet s k v → p = (k, v) ∨ p ∈ s := by
  unfold storeSet
  by_cases h : s.any (fun q => q.1 == k)
  · rw [if_pos h]
    intro hp
    rcases List.mem_map.mp hp with ⟨q, hq, hfq⟩
    by_cases hqk : q.1 = k
    · left
      rw [← hfq]
      simp [hqk]
    · right
      rw [← hfq]
      simpa [hqk] using hq
  · rw [if_neg h]
    intro hp
    rcases List.mem_append.mp hp with h1 | h1
    · right; exact h1
    · left; simpa using h1

theorem storeGet_mem {s : Store} {k : String} {r : TermRecord}
    (h : storeGet s k = some r) : (k, r) ∈ s := by
  unfold storeGet at h
  cases hf : s.find? (fun p => p.1 == k) with
  | none => rw [hf] at h; simp at h
  | some q =>
    rw [hf] at h
    have hq1 : q.1 = k := by
      have := List.find?_some hf
      simpa using this
    have hq2 : q.2 = r := by simpa using h
    have := List.mem_of_find?_eq_some hf
    rw [show (k, r) = q from by rw [← hq1, ← hq2]]
    exact this

theorem storeSynced_addTerm {s : Store} (h : storeSynced s)
    (e v cat src : String) (conf : ℚ) (t1 t2 t3 : Nat) :
    storeSynced (addTerm s e v cat src conf t1 t2 t3).2 := by
  intro p hp
  simp only [addTerm] at hp
  rcases mem_storeSet hp with h1 | h1
  · rw [h1]
    exact ⟨_, rfl, rfl, rfl, rfl⟩
  · exact h p h1

theorem storeSynced_updateTerm {s : Store} (h : storeSynced s)
    (e v src : String) (conf : ℚ) (tv tu : Nat) :
    storeSynced (updateTerm s e v src conf tv tu).2 := by
  intro p hp
  simp only [updateTerm] at hp
  cases hg : storeGet s (normKey e) with
  | none =>
    rw [hg] at hp
    exact h p hp
  | some r0 =>
    rw [hg] at hp
    rcases mem_storeSet hp with h1 | h1
    · rw [h1]
      exact ⟨_, List.getLast?_concat _, rfl, rfl, rfl⟩
    · exact h p h1

theorem storeSynced_importCsv {s : Store} (h : storeSynced s)
    (src : String) (rows : List Row) :
    storeSynced (importCsv s src rows) := by
  induction rows generalizing s with
  | nil => exact h
  | cons r rest ih =>
    have hrow : ∀ q, storeSynced (importRow s src r q) := by
      intro q
      unfold importRow
      cases r.english with
      | none => exact h
      | some e =>
        cases r.vietnamese with
        | none => exact h
        | some v => exact storeSynced_addTerm h _ _ _ _ _ _ _ _
    unfold importCsv
    cases r.confCell with
    | none => exact ih (hrow 1)
    | some c =>
      cases c with
      | none => exact h
      | some q => exact ih (hrow q)

theorem storeSynced_reachable {s : Store} (h : Reachable s) :
    storeSynced s := by
  induction h with
  | empty => intro p hp; simp at hp
  | add e v cat src conf t1 t2 t3 _ _ _ ih =>
    exact storeSynced_addTerm ih e v cat src conf t1 t2 t3
  | update e v src conf tv tu _ _ ih =>
    exact storeSynced_updateTerm ih e v src conf tv tu
  | imp src rows _ _ ih => exact storeSynced_importCsv ih src rows

theorem storeTimeSynced_addTermEq {s : Store} (h : storeTimeSynced s)
    (e v cat src : String) (conf : ℚ) (t : Nat) :
    storeTimeSynced (addTerm s e v cat src conf t t t).2 := by
  intro p hp
  simp only [addTerm] at hp
  rcases mem_storeSet hp with h1 | h1
  · rw [h1]
    exact ⟨_, rfl, rfl⟩
  · exact h p h1

theorem storeTimeSynced_updateTermEq {s : Store} (h : storeTimeSynced s)
    (e v src : String) (conf : ℚ) (t : Nat) :
    storeTimeSynced (updateTerm s e v src conf t t).2 := by
  intro p hp
  simp only [updateTerm] at hp
  cases hg : storeGet s (normKey e) with
  | none =>
    rw [hg] at hp
    exact h p hp
  | some r0 =>
    rw [hg] at hp
    rcases mem_storeSet hp with h1 | h1
    · rw [h1]
      exact ⟨_, List.getLast?_concat _, rfl⟩
    · exact h p h1

theorem storeTimeSynced_importCsvEq {s : Store} (h : storeTimeSynced s)
    (src : String) (rows : List Row)
    (hrows : ∀ r ∈ rows, r.t1 = r.t2 ∧ r.t2 = r.t3) :
    storeTimeSynced (importCsv s src rows) := by
  induction rows generalizing s with
  | nil => exact h
  | cons r rest ih =>
    have hr := hrows r (List.mem_cons_self _ _)
    have hrow : ∀ q, storeTimeSynced (importRow s src r q) := by
      intro q
      unfold importRow
      cases r.english with
      | none => exact h
      | some e =>
        cases r.vietnamese with
        | none => exact h
        | some v =>
          intro p hp
          simp only [addTerm] at hp
          rcases mem_storeSet hp with h1 | h1
          · rw [h1]
            exact ⟨_, rfl, hr.2⟩
          · exact h p h1
    have hrest : ∀ r' ∈ rest, r'.t1 = r'.t2 ∧ r'.t2 = r'.t3 := by
      intro r' hr'
      exact hrows r' (List.mem_cons_of_mem _ hr')
    unfold importCsv
    cases r.confCell with
    | none => exact ih (hrow 1) hrest
    | some c =>
      cases c with
      | none => exact h
      | some q => exact ih (hrow q) hrest

theorem storeTimeSynced_reachableEq {s : Store} (h : ReachableEq s) :
    storeTimeSynced s := by
  induction h with
  | empty => intro p hp; simp at hp
  | add e v cat src conf t _ ih =>
    exact storeTimeSynced_addTermEq ih e v cat src conf t
  | update e v src conf t _ ih =>
    exact storeTimeSynced_updateTermEq ih e v src conf t
  | imp src rows _ hrows ih =>
    exact storeTimeSynced_importCsvEq ih src rows hrows

/- ## C3 -/

/-- C3 (amended): in every reachable store, every stored record has at
least one version entry whose last element carries the record's current
translation, confidence and source; the record's last_updated timestamp is
read in the same mutating call as the last entry's date (immediately before
it in add_term, immediately after it in update_term), so the two agree
exactly when the clock did not advance between those reads — in particular
they are equal in every store reachable with a per-call-constant clock. -/
theorem C3_record_sync_invariant :
    (∀ s, Reachable s → ∀ k r, storeGet s k = some r →
      r.versions ≠ [] ∧ ∃ e, r.versions.getLast? = some e ∧
        r.vietnamese = e.vietnamese ∧ r.confidence = e.confidence ∧
        r.source = e.source) ∧
    (∀ s, ReachableEq s → ∀ k r, storeGet s k = some r →
      ∃ e, r.versions.getLast? = some e ∧ r.last_updated = e.date) := by
  constructor
  · intro s hs k r hr
    have hsync := storeSynced_reachable hs (k, r) (storeGet_mem hr)
    rcases hsync with ⟨e, he, h1, h2, h3⟩
    refine ⟨?_, e, he, h1, h2, h3⟩
    intro hnil
    rw [hnil] at he
    simp at he
  · intro s hs k r hr
    exact storeTimeSynced_reachableEq hs (k, r) (storeGet_mem hr)

/-- The record produced by add_term of "k"/"v" with clock reads 0, 1, 2. -/
def skewRec : TermRecord :=
  { vietnamese := "v", category := "general", source := "manual",
    confidence := 1, added_date := 0, last_updated := 1,
    versions := [{ vietnamese := "v", confidence := 1, date := 2,
                   source := "manual" }] }

/-- C3 counterexample: the claim as stated also asserts that last_updated
always equals the last version entry's timestamp, but add_term reads the
clock separately for the two fields (lines 75 and 79), so a single
reachable add_term call during which the clock advanced yields a record
with last_updated 1 and a sole version entry dated 2. -/
theorem C3_record_sync_invariant_cex :
    Reachable (addTerm [] "k" "v" "general" "manual" 1 0 1 2).2 ∧
    ∃ r, storeGet (addTerm [] "k" "v" "general" "manual" 1 0 1 2).2 "k" =
        some r ∧
      ∃ e, r.versions.getLast? = some e ∧ r.last_updated ≠ e.date := by
  refine ⟨Reachable.add "k" "v" "general" "manual" 1 0 1 2 Reachable.empty
    (by decide) (by decide), ?_⟩
  refine ⟨skewRec, by decide, ?_⟩
  exact ⟨_, rfl, by decide⟩

/-- C3 witness: both parts applied to small concrete reachable stores. -/
theorem C3_record_sync_invariant_witness :
    (({ vietnamese := "v", category := "general", source := "manual",
        confidence := 1, added_date := 0, last_updated := 1,
        versions := [{ vietnamese := "v", confidence := 1, date := 2,
                       source := "manual" }] } : TermRecord).versions ≠ [] ∧
      ∃ e, ([{ vietnamese := "v", confidence := 1, date := 2,
               source := "manual" }] : List VersionEntry).getLast? = some e ∧
        "v" = e.vietnamese ∧ (1 : ℚ) = e.confidence ∧ "manual" = e.source) ∧
    (∃ e, ([{ vietnamese := "v", confidence := 1, date := 5,
              source := "manual" }] : List VersionEntry).getLast? = some e ∧
      (5 : Nat) = e.date) := by
  constructor
  · exact C3_record_sync_invariant.1 _
      (Reachable.add "k" "v" "general" "manual" 1 0 1 2 Reachable.empty
        (by decide) (by decide)) "k" _ (by decide)
  · have h := C3_record_sync_invariant.2 _
      (ReachableEq.add "k" "v" "general" "manual" 1 5 ReachableEq.empty)
      "k" { vietnamese := "v", category := "general", source := "manual",
            confidence := 1, added_date := 5, last_updated := 5,
            versions := [{ vietnamese := "v", confidence := 1, date := 5,
                           source := "manual" }] } (by decide)
    exact h

/- ## difflib.SequenceMatcher, as used by get_similar_terms -/

/-- Indices at which character c occurs in l, ascending: difflib's b2j
entry for c. -/
def indicesOfAux (c : Char) : List Char → Nat → List Nat
  | [], _ => []
  | x :: xs, i =>
      if x = c then i :: indicesOfAux c xs (i + 1)
      else indicesOfAux c xs (i + 1)

def indicesOf (c : Char) (l : List Char) : List Nat := indicesOfAux c l 0

/-- Number of occurrences of c in l. -/
def countChar (c : Char) (l : List Char) : Nat :=
  (l.filter (fun x => x == c)).length

/-- The b2j mapping of difflib.SequenceMatcher(None, a, b): positions of
each character in b, with autojunk (active only when b has at least 200
characters) dropping characters occupying more than one percent of b.
isjunk is None, so bjunk is empty and junk never blocks the extension
passes of find_longest_match. -/
def b2jFun (b : List Char) (c : Char) : List Nat :=
  if 200 ≤ b.length ∧ b.length / 100 + 1 < countChar c b then []
  else indicesOf c b

/-- Inner loop of find_longest_match over the b-indices of a[i]
(ascending); j2len is the previous row of the run-length table, newj2len
the row under construction, best the triple (besti, bestj, bestsize).
Indices below blo are skipped, the scan stops at bhi, and a new best is
recorded only on strict improvement (Python: k greater than bestsize).
Python's best indices i-k+1 and j-k+1 are written i+1-k and j+1-k so the
truncated Nat subtraction computes the same value (a run ending at row i
has k at most i-alo+1). -/
def flmInner (blo bhi i : Nat) (j2len : Nat → Nat) :
    List Nat → (Nat → Nat) → Nat × Nat × Nat →
      (Nat → Nat) × (Nat × Nat × Nat)
  | [], newj2len, best => (newj2len, best)
  | j :: rest, newj2len, best =>
    if j < blo then flmInner blo bhi i j2len rest newj2len best
    else if bhi ≤ j then (newj2len, best)
    else
      let k := (if j = 0 then 0 else j2len (j - 1)) + 1
      let newj2len' := fun x => if x = j then k else newj2len x
      let best' := if best.2.2 < k then (i + 1 - k, j + 1 - k, k) else best
      flmInner blo bhi i j2len rest newj2len' best'

/-- Outer loop of find_longest_match over i from alo, cnt steps. -/
def flmLoop (a : List Char) (bj : Char → List Nat) (blo bhi : Nat) :
    Nat → Nat → (Nat → Nat) → Nat × Nat × Nat → Nat × Nat × Nat
  | _, 0, _, best => best
  | i, cnt + 1, j2len, best =>
    let r := flmInner blo bhi i j2len (bj (a.getD i ' ')) (fun _ => 0) best
    flmLoop a bj blo bhi (i + 1) cnt r.1 r.2

/-- The leftward extension pass of find_longest_match (bjunk is empty, so
its junk guard reduces to plain character equality). The first Nat is
structural fuel, always invoked with the value of besti: each step lowers
besti and the fuel together, and at fuel zero besti is zero, where the loop
guard alo less-than besti is false anyway, so the fuel never cuts the loop
short. -/
def extendLeft (a b : List Char) (alo blo : Nat) :
    Nat → Nat → Nat → Nat → Nat × Nat × Nat
  | 0, besti, bestj, size => (besti, bestj, size)
  | fuel + 1, besti, bestj, size =>
    if alo < besti ∧ blo < bestj ∧
        a.getD (besti - 1) ' ' = b.getD (bestj - 1) ' ' then
      extendLeft a b alo blo fuel (besti - 1) (bestj - 1) (size + 1)
    else (besti, bestj, size)

/-- The rightward extension pass of find_longest_match; the structural fuel
is always invoked as ahi - (besti + size), which reaches zero exactly when
the loop guard fails, so the fuel never cuts the loop short. -/
def extendRight (a b : List Char) (ahi bhi : Nat) :
    Nat → Nat → Nat → Nat → Nat
  | 0, _, _, size => size
  | fuel + 1, besti, bestj, size =>
    if besti + size < ahi ∧ bestj + size < bhi ∧
        a.getD (besti + size) ' ' = b.getD (bestj + size) ' ' then
      extendRight a b ahi bhi fuel besti bestj (size + 1)
    else size

/-- difflib SequenceMatcher.find_longest_match on a[alo:ahi] vs b[blo:bhi]
(isjunk None: both junk extension passes are no-ops). -/
def findLongestMatch (a b : List Char) (bj : Char → List Nat)
    (alo ahi blo bhi : Nat) : Nat × Nat × Nat :=
  let best := flmLoop a bj blo bhi alo (ahi - alo) (fun _ => 0) (alo, blo, 0)
  let l := extendLeft a b alo blo best.1 best.1 best.2.1 best.2.2
  (l.1, l.2.1,
    extendRight a b ahi bhi (ahi - (l.1 + l.2.2)) l.1 l.2.1 l.2.2)

/-- Total size of the blocks of get_matching_blocks: the longest match
splits the ranges and both sides are processed recursively (difflib drives
this with an explicit queue; the sum of block sizes is identical, and the
trailing merge of adjacent blocks cannot change the sum). fuel bounds the
recursion depth; every use passes a.length + 1, which exceeds the maximal
depth because each recursive call strictly shrinks the a-range. -/
def matchingTotal (a b : List Char) (bj : Char → List Nat) :
    Nat → Nat → Nat → Nat → Nat → Nat
  | 0, _, _, _, _ => 0
  | fuel + 1, alo, ahi, blo, bhi =>
    let m := findLongestMatch a b bj alo ahi blo bhi
    if m.2.2 = 0 then 0
    else
      matchingTotal a b bj fuel alo m.1 blo m.2.1 + m.2.2 +
        matchingTotal a b bj fuel (m.1 + m.2.2) ahi (m.2.1 + m.2.2) bhi

/-- difflib SequenceMatcher(None, qa, kb).ratio(): twice the matched
character count over the total length, and 1.0 when both strings are empty
(_calculate_ratio). Rationals stand in for Python floats; for the small
integer sums and lengths arising here the float comparison against the
literal 0.6 agrees with the exact rational comparison against 3/5. -/
def simScore (qa kb : String) : ℚ :=
  let a := qa.toList
  let b := kb.toList
  let m := matchingTotal a b (b2jFun b) (a.length + 1) 0 a.length 0 b.length
  if a.length + b.length = 0 then 1
  else mkRat (2 * m) (a.length + b.length)

/-- The minimum-similarity threshold of get_similar_terms (the float
literal 0.6 at medical_dictionary.py line 171), as the exact rational. -/
def simThreshold : ℚ := mkRat 3 5

theorem simThreshold_eq : simThreshold = 3/5 := by
  rw [simThreshold, Rat.mkRat_eq_divInt, Rat.divInt_eq_div]
  norm_num

/-- The loop of get_similar_terms filling matches, in key iteration
order (medical_dictionary.py lines 169-172). -/
def buildMatches (t : String) : List String → List (String × ℚ)
  | [] => []
  | k :: ks =>
    if simThreshold < simScore t k then (k, simScore t k) :: buildMatches t ks
    else buildMatches t ks

/-- One insertion step of a stable descending sort on the score component:
Python's sorted(key=score, reverse=True) keeps equal-score elements in
their original order. -/
def insertDesc (x : String × ℚ) : List (String × ℚ) → List (String × ℚ)
  | [] => [x]
  | y :: ys => if x.2 < y.2 then y :: insertDesc x ys else x :: y :: ys

def sortDesc : List (String × ℚ) → List (String × ℚ)
  | [] => []
  | x :: xs => insertDesc x (sortDesc xs)

/-- MedicalDictionary.get_similar_terms (lines 155-175); n is the top-n
cut, 5 by Python default (the validator and the suggester use that
default). -/
def getSimilarTerms (s : Store) (term : String) (n : Nat) :
    List (String × ℚ) :=
  (sortDesc (buildMatches (normKey term) (storeKeys s))).take n

/-- The candidate set as the spec phrases it: the stored keys whose
similarity with the lower-cased, trimmed query strictly exceeds 0.6, with
their scores, in key iteration order. -/
def candidateMatches (s : Store) (term : String) : List (String × ℚ) :=
  (storeKeys s).filterMap (fun k =>
    if simThreshold < simScore (normKey term) k then
      some (k, simScore (normKey term) k)
    else none)

/- ## Sorting lemmas -/

theorem buildMatches_eq_filterMap (t : String) (ks : List String) :
    buildMatches t ks = ks.filterMap (fun k =>
      if simThreshold < simScore t k then some (k, simScore t k) else none) := by
  induction ks with
  | nil => rfl
  | cons k ks ih =>
    unfold buildMatches
    by_cases h : simThreshold < simScore t k
    · rw [if_pos h, ih, List.filterMap_cons_some (by rw [if_pos h])]
    · rw [if_neg h, ih, List.filterMap_cons_none (by rw [if_neg h])]

theorem mem_insertDesc {x p : String × ℚ} {l : List (String × ℚ)} :
    p ∈ insertDesc x l ↔ p = x ∨ p ∈ l := by
  induction l with
  | nil => simp [insertDesc]
  | cons y ys ih =>
    unfold insertDesc
    by_cases h : x.2 < y.2
    · rw [if_pos h]
      rw [List.mem_cons, ih, List.mem_cons]
      tauto
    · rw [if_neg h]
      rw [List.mem_cons, List.mem_cons]

theorem mem_sortDesc {p : String × ℚ} {l : List (String × ℚ)} :
    p ∈ sortDesc l ↔ p ∈ l := by
  induction l with
  | nil => simp [sortDesc]
  | cons y ys ih =>
    unfold sortDesc
    rw [mem_insertDesc, ih]
    simp

theorem pairwise_insertDesc {x : String × ℚ} {l : List (String × ℚ)}
    (h : l.Pairwise (fun a b => b.2 ≤ a.2)) :
    (insertDesc x l).Pairwise (fun a b => b.2 ≤ a.2) := by
  induction l with
  | nil => simp [insertDesc]
  | cons y ys ih =>
    unfold insertDesc
    rcases List.pairwise_cons.mp h with ⟨hy, hys⟩
    by_cases hlt : x.2 < y.2
    · rw [if_pos hlt]
      refine List.pairwise_cons.mpr ⟨?_, ih hys⟩
      intro z hz
      rcases mem_insertDesc.mp hz with hz1 | hz1
      · rw [hz1]; exact le_of_lt hlt
      · exact hy z hz1
    · rw [if_neg hlt]
      refine List.pairwise_cons.mpr ⟨?_, h⟩
      intro z hz
      rcases List.mem_cons.mp hz with hz1 | hz1
      · rw [hz1]; exact le_of_not_lt hlt
      · exact le_trans (hy z hz1) (le_of_not_lt hlt)

theorem pairwise_sortDesc (l : List (String × ℚ)) :
    (sortDesc l).Pairwise (fun a b => b.2 ≤ a.2) := by
  induction l with
  | nil => simp [sortDesc]
  | cons y ys ih => exact pairwise_insertDesc ih

theorem filter_insertDesc (x : String × ℚ) (l : List (String × ℚ)) (sc : ℚ) :
    (insertDesc x l).filter (fun y => y.2 == sc) =
      if x.2 == sc then x :: l.filter (fun y => y.2 == sc)
      else l.filter (fun y => y.2 == sc) := by
  induction l with
  | nil =>
    by_cases h : x.2 = sc
    · simp [insertDesc, h]
    · simp [insertDesc, h]
  | cons y ys ih =>
    unfold insertDesc
    by_cases hlt : x.2 < y.2
    · rw [if_pos hlt]
      by_cases hy : y.2 = sc
      · by_cases hx : x.2 = sc
        · exfalso
          rw [hx] at hlt
          rw [hy] at hlt
          exact lt_irrefl sc hlt
        · simp only [List.filter_cons, ih]
          simp [hx, hy]
      · simp only [List.filter_cons, ih]
        by_cases hx : x.2 = sc
        · simp [hx, hy]
        · simp [hx, hy]
    · rw [if_neg hlt]
      by_cases hx : x.2 = sc
      · simp [List.filter_cons, hx]
      · simp [List.filter_cons, hx]

theorem filter_sortDesc (l : List (String × ℚ)) (sc : ℚ) :
    (sortDesc l).filter (fun y => y.2 == sc) =
      l.filter (fun y => y.2 == sc) := by
  induction l with
  | nil => rfl
  | cons y ys ih =>
    unfold sortDesc
    rw [filter_insertDesc, List.filter_cons]
    by_cases hy : y.2 = sc
    · simp [hy, ih]
    · simp [hy, ih]

/- ## C4 -/

/-- C4: get_similar_terms equals the stable descending sort of exactly the
stored keys scoring strictly above 0.6 against the lower-cased trimmed
query, truncated to the first n; the result is sorted by non-increasing
score, has at most n entries, every returned pair is a stored key paired
with its above-threshold score, equal-score classes stay in key iteration
order, and with no candidate above the threshold the result is empty. -/
theorem C4_similar_terms (s : Store) (q : String) (n : Nat) :
    simThreshold = 3/5 ∧
    getSimilarTerms s q n = (sortDesc (candidateMatches s q)).take n ∧
    (getSimilarTerms s q n).Pairwise (fun a b => b.2 ≤ a.2) ∧
    (getSimilarTerms s q n).length ≤ n ∧
    (∀ p ∈ getSimilarTerms s q n, p.1 ∈ storeKeys s ∧
      p.2 = simScore (normKey q) p.1 ∧ simThreshold < p.2) ∧
    (∀ sc : ℚ, (sortDesc (candidateMatches s q)).filter (fun y => y.2 == sc) =
      (candidateMatches s q).filter (fun y => y.2 == sc)) ∧
    (candidateMatches s q = [] → getSimilarTerms s q n = []) := by
  have heq : getSimilarTerms s q n = (sortDesc (candidateMatches s q)).take n := by
    unfold getSimilarTerms candidateMatches
    rw [buildMatches_eq_filterMap]
  refine ⟨simThreshold_eq, heq, ?_, ?_, ?_, ?_, ?_⟩
  · unfold getSimilarTerms
    exact (pairwise_sortDesc _).sublist (List.take_sublist _ _)
  · unfold getSimilarTerms
    have := List.length_take n (sortDesc (buildMatches (normKey q) (storeKeys s)))
    omega
  · intro p hp
    unfold getSimilarTerms at hp
    have hp2 : p ∈ buildMatches (normKey q) (storeKeys s) :=
      mem_sortDesc.mp (List.mem_of_mem_take hp)
    rw [buildMatches_eq_filterMap] at hp2
    rcases List.mem_filterMap.mp hp2 with ⟨k, hk, hf⟩
    by_cases hcond : simThreshold < simScore (normKey q) k
    · rw [if_pos hcond] at hf
      have hpk : p = (k, simScore (normKey q) k) := by
        exact (Option.some_inj.mp hf).symm
      rw [hpk]
      exact ⟨hk, rfl, hcond⟩
    · rw [if_neg hcond] at hf
      exact absurd hf (by simp)
  · intro sc
    exact filter_sortDesc _ sc
  · intro hc
    rw [heq, hc]
    simp [sortDesc]

/-- A small record used to populate concrete stores in witnesses. -/
def sampleRec : TermRecord :=
  { vietnamese := "x", category := "general", source := "manual",
    confidence := 1, added_date := 0, last_updated := 0,
    versions := [{ vietnamese := "x", confidence := 1, date := 0,
                   source := "manual" }] }

/-- C4 witness: the membership conjunct at the store holding the single key
"fever" queried with "fever", and the empty-result conjunct at the empty
store. -/
theorem C4_similar_terms_witness :
    (("fever", (1 : ℚ)).1 ∈ storeKeys [("fever", sampleRec)] ∧
      ("fever", (1 : ℚ)).2 = simScore (normKey "fever") ("fever", (1 : ℚ)).1 ∧
      simThreshold < ("fever", (1 : ℚ)).2) ∧
    getSimilarTerms ([] : Store) "xyz" 5 = [] :=
  ⟨(C4_similar_terms [("fever", sampleRec)] "fever" 5).2.2.2.2.1
      ("fever", 1) (by decide),
    (C4_similar_terms ([] : Store) "xyz" 5).2.2.2.2.2.2 (by decide)⟩

/- ## The translation validator -/

/-- The trigger class of the diacritic heuristic: the regex class at
translation_validator.py line 94. -/
def baseVietChars : List Char := "ăâđêôơư".toList

/-- The vietnamese_chars string of translation_validator.py line 90 (the
same characters as vietLowerStr). -/
def vietnameseChars : List Char := vietLowerStr.toList

/-- TranslationValidator._has_missing_diacritics (lines 79-97): the
lower-cased text contains a basic Vietnamese letter yet none of the
diacritic characters. -/
def hasMissingDiacritics (text : String) : Bool :=
  let tl := (lowerStr text).toList
  (tl.any (fun c => baseVietChars.contains c)) &&
    !(vietnameseChars.any (fun c => tl.contains c))

/-- Python: the two-space substring occurs in the text. -/
def hasDoubleSpace : List Char → Bool
  | c1 :: c2 :: rest => (c1 == ' ' && c2 == ' ') || hasDoubleSpace (c2 :: rest)
  | _ => false

/-- Characters of the whitelist class at translation_validator.py line 122:
ASCII letters and digits, the lower-case Vietnamese letters (with đ), the
single upper-case letter Đ, backslash-s whitespace, hyphen, period, comma
and parentheses. -/
def allowedChar (c : Char) : Bool :=
  ('a' ≤ c && c ≤ 'z') || ('A' ≤ c && c ≤ 'Z') || ('0' ≤ c && c ≤ '9') ||
    vietnameseChars.contains c || c == 'Đ' || pySpace c ||
    c == '-' || c == '.' || c == ',' || c == '(' || c == ')'

/-- TranslationValidator._check_formatting (lines 99-125). -/
def checkFormatting (text : String) : Bool :=
  if text = "" then false
  else if text ≠ stripStr text then false
  else if hasDoubleSpace text.toList then false
  else if text.toList.any (fun c => !(allowedChar c)) then false
  else true

/-- One entry of the similar_terms enrichment
(translation_validator.py lines 68-75). -/
structure SimEntry where
  english : String
  vietnamese : String
  similarity : ℚ
deriving DecidableEq, Repr

/-- The results dict of validate_translation (lines 37-42, plus the
optional similar_terms key of line 68). -/
structure VResult where
  valid : Bool
  issues : List String
  confidence : ℚ
  suggestions : List String
  similarTerms : Option (List SimEntry)
deriving DecidableEq, Repr

/-- The dictionary-consistency trigger of validate_translation lines 46-47:
a record exists and its current translation differs case-insensitively. -/
def dictDiffers (s : Store) (english vietnamese : String) : Bool :=
  match getTranslation s english with
  | some r => !(lowerStr r.vietnamese == lowerStr vietnamese)
  | none => false

/-- The issues list validate_translation accumulates, in check order. -/
def vIssues (s : Store) (english vietnamese : String) : List String :=
  (if dictDiffers s english vietnamese then
    ["Translation differs from dictionary"] else []) ++
  (if hasMissingDiacritics vietnamese then
    ["Missing diacritical marks"] else []) ++
  (if !(checkFormatting vietnamese) then ["Incorrect formatting"] else [])

/-- The confidence validate_translation accumulates: 1.0 discounted
multiplicatively and independently per fired check (float literals 0.7,
0.8, 0.9 as exact rationals). -/
def vConfidence (s : Store) (english vietnamese : String) : ℚ :=
  (if dictDiffers s english vietnamese then mkRat 7 10 else 1) *
  (if hasMissingDiacritics vietnamese then mkRat 8 10 else 1) *
  (if !(checkFormatting vietnamese) then mkRat 9 10 else 1)

/-- The valid flag: true at start, set false by any firing check. -/
def vValid (s : Store) (english vietnamese : String) : Bool :=
  !(dictDiffers s english vietnamese || hasMissingDiacritics vietnamese ||
    !(checkFormatting vietnamese))

/-- The suggestions list: the stored translation, when the dictionary
check fired. -/
def vSuggestions (s : Store) (english vietnamese : String) : List String :=
  match getTranslation s english with
  | some r => if !(lowerStr r.vietnamese == lowerStr vietnamese) then
      [r.vietnamese] else []
  | none => []

/-- The similar_terms list comprehension (lines 68-75): each entry
dereferences get_translation(term)["vietnamese"]; a key missing from the
store makes the comprehension raise, modelled as none. -/
def simEntries (s : Store) : List (String × ℚ) → Option (List SimEntry)
  | [] => some []
  | (k, sc) :: rest =>
    match getTranslation s k, simEntries s rest with
    | some r, some es =>
        some ({ english := k, vietnamese := r.vietnamese,
                similarity := sc } :: es)
    | _, _ => none

/-- TranslationValidator.validate_translation (lines 24-77). The checks
run unconditionally one after the other (no short-circuiting); the result
is none exactly when the enrichment dereferences a missing record (an
uncaught TypeError in Python). -/
def validateTranslation (s : Store) (english vietnamese : String) :
    Option VResult :=
  let sim := getSimilarTerms s english 5
  if sim.isEmpty then
    some { valid := vValid s english vietnamese,
           issues := vIssues s english vietnamese,
           confidence := vConfidence s english vietnamese,
           suggestions := vSuggestions s english vietnamese,
           similarTerms := none }
  else
    match simEntries s sim with
    | some es =>
        some { valid := vValid s english vietnamese,
               issues := vIssues s english vietnamese,
               confidence := vConfidence s english vietnamese,
               suggestions := vSuggestions s english vietnamese,
               similarTerms := some es }
    | none => none

/-- The per-term lines of the related-terms block of suggest_improvements
(lines 157-161); each dereferences get_translation(term)["vietnamese"]. -/
def suggestLines (s : Store) : List (String × ℚ) → Option (List String)
  | [] => some []
  | (k, _) :: rest =>
    match getTranslation s k, suggestLines s rest with
    | some r, some ls => some (("- " ++ k ++ ": " ++ r.vietnamese) :: ls)
    | _, _ => none

/-- TranslationValidator.suggest_improvements (lines 127-163). The
dictionary comparison here is case-sensitive, unlike the one in
validate_translation. -/
def suggestImprovements (s : Store) (english vietnamese : String) :
    Option (List String) :=
  let base :=
    (match getTranslation s english with
     | some r =>
        if !(r.vietnamese == vietnamese) then
          ["Consider using established translation: " ++ r.vietnamese]
        else []
     | none => []) ++
    (if hasMissingDiacritics vietnamese then
      ["Add appropriate diacritical marks to Vietnamese text"] else []) ++
    (if !(checkFormatting vietnamese) then
      ["Fix formatting issues (whitespace, special characters)"] else [])
  let sim := getSimilarTerms s english 5
  if sim.isEmpty then some base
  else
    match suggestLines s (sim.take 3) with
    | some ls => some (base ++ ["Related terms for reference:"] ++ ls)
    | none => none

/- ## Validator lemmas -/

attribute [local semireducible] Rat.mul

theorem baseViet_subset :
    ∀ c ∈ baseVietChars, vietnameseChars.contains c = true := by decide

theorem hasMissingDiacritics_false (t : String) :
    hasMissingDiacritics t = false := by
  show ((lowerStr t).toList.any (fun c => baseVietChars.contains c) &&
    !(vietnameseChars.any (fun c => (lowerStr t).toList.contains c))) = false
  cases hv : (lowerStr t).toList.any (fun c => baseVietChars.contains c) with
  | false => rw [Bool.false_and]
  | true =>
    rcases List.any_eq_true.mp hv with ⟨c, hc, hcb⟩
    have hcmem : c ∈ baseVietChars := by simpa using hcb
    have hcv : c ∈ vietnameseChars := by
      simpa using baseViet_subset c hcmem
    have hany : vietnameseChars.any
        (fun x => (lowerStr t).toList.contains x) = true :=
      List.any_eq_true.mpr ⟨c, hcv, by simpa using hc⟩
    rw [hany]
    rfl

theorem validate_fields {s : Store} {e v : String} {res : VResult}
    (h : validateTranslation s e v = some res) :
    res.valid = vValid s e v ∧ res.issues = vIssues s e v ∧
    res.confidence = vConfidence s e v ∧
    res.suggestions = vSuggestions s e v ∧
    (res.similarTerms = none ↔ getSimilarTerms s e 5 = []) := by
  unfold validateTranslation at h
  by_cases hs : (getSimilarTerms s e 5).isEmpty
  · rw [if_pos hs] at h
    have hres := (Option.some_inj.mp h).symm
    rw [hres]
    refine ⟨rfl, rfl, rfl, rfl, ?_⟩
    simp only [true_iff]
    exact List.isEmpty_iff.mp hs
  · rw [if_neg hs] at h
    cases hm : simEntries s (getSimilarTerms s e 5) with
    | none => rw [hm] at h; exact absurd h (by simp)
    | some es =>
      rw [hm] at h
      have hres := (Option.some_inj.mp h).symm
      rw [hres]
      refine ⟨rfl, rfl, rfl, rfl, ?_⟩
      constructor
      · intro hh; exact absurd hh (by simp)
      · intro hh
        exact absurd (List.isEmpty_iff.mpr hh) hs

/- ## C5 -/

/-- The diacritic trigger condition as claim C5 words it: the lower-cased
text contains one of the base letters ă â đ ê ô ơ ư (membership in the
letter-only form equals membership in the full text, the base letters
being letters), and every character of the text other than those base
letters is not a diacritic mark character. -/
def specC5Cond (text : String) : Bool :=
  let tl := (lowerStr text).toList
  (tl.any (fun c => baseVietChars.contains c)) &&
    tl.all (fun c => baseVietChars.contains c ||
      !(vietnameseChars.contains c))

/-- C5 counterexample: the text "ăn" satisfies the claimed trigger
condition, yet validate_translation on it (empty store, so no other check
interferes) returns a fully valid result with no issue and confidence 1:
the claimed flagging never happens. -/
theorem C5_diacritic_flag_cex :
    specC5Cond "ăn" = true ∧
    validateTranslation ([] : Store) "x" "ăn" =
      some { valid := true, issues := [], confidence := 1,
             suggestions := [], similarTerms := none } :=
  ⟨by decide, by decide⟩

/-- C5 (amended): the diacritic check never fires — every base letter of
the trigger class is itself a member of the diacritic character set the
code then searches the same text for, so _has_missing_diacritics is
constantly false, validate_translation never appends "Missing diacritical
marks" and never applies the 0.8 factor, and the check leaves every result
untouched. -/
theorem C5_diacritic_check_never_fires :
    (∀ t : String, hasMissingDiacritics t = false) ∧
    (∀ (s : Store) (e v : String) (res : VResult),
      validateTranslation s e v = some res →
      "Missing diacritical marks" ∉ res.issues ∧
      res.confidence = (if dictDiffers s e v then mkRat 7 10 else 1) *
        (if !(checkFormatting v) then mkRat 9 10 else 1)) := by
  refine ⟨hasMissingDiacritics_false, ?_⟩
  intro s e v res h
  rcases validate_fields h with ⟨_, h2, h3, _, _⟩
  constructor
  · rw [h2]
    unfold vIssues
    rw [hasMissingDiacritics_false]
    cases hd : dictDiffers s e v <;> cases hf : checkFormatting v <;> simp
  · rw [h3]
    unfold vConfidence
    rw [hasMissingDiacritics_false]
    simp only [Bool.false_eq_true, if_false, mul_one]

/-- C5 witness: the amended theorem applied to the text "pho" against the
empty store. -/
theorem C5_diacritic_check_never_fires_witness :
    hasMissingDiacritics "pho" = false ∧
    ("Missing diacritical marks" ∉
        ({ valid := true, issues := [], confidence := 1, suggestions := [],
           similarTerms := none } : VResult).issues ∧
      ({ valid := true, issues := [], confidence := 1, suggestions := [],
         similarTerms := none } : VResult).confidence =
        (if dictDiffers [] "x" "pho" then mkRat 7 10 else 1) *
        (if !(checkFormatting "pho") then mkRat 9 10 else 1)) :=
  ⟨C5_diacritic_check_never_fires.1 "pho",
   C5_diacritic_check_never_fires.2 [] "x" "pho" _ (by decide)⟩

/- ## C6 -/

/-- The whitelist as claim C6 words it: ASCII letters and digits, the
Vietnamese diacritic letter set in both upper and lower case, whitespace,
hyphen, period, comma and parentheses. -/
def specAllowedChar (c : Char) : Bool :=
  ('a' ≤ c && c ≤ 'z') || ('A' ≤ c && c ≤ 'Z') || ('0' ≤ c && c ≤ '9') ||
    vietnameseChars.contains c || vietUpperStr.toList.contains c ||
    pySpace c || c == '-' || c == '.' || c == ',' || c == '(' || c == ')'

/-- The formatting predicate as claim C6 words it, in conjunction form. -/
def specCheckFormatting (text : String) : Bool :=
  !(text == "") && (text == stripStr text) &&
    !(hasDoubleSpace text.toList) && text.toList.all specAllowedChar

/-- The same conjunction with the whitelist the code actually enforces:
only the lower-case Vietnamese letters plus the single upper-case Đ. -/
def specCheckFormattingA (text : String) : Bool :=
  !(text == "") && (text == stripStr text) &&
    !(hasDoubleSpace text.toList) && text.toList.all allowedChar

/-- C6 counterexample: the text "Ố" consists of one character of the
claimed whitelist (an upper-case Vietnamese diacritic letter) and meets
every other condition, yet _check_formatting rejects it — the class at
line 122 holds only the lower-case letters plus Đ — so validate_translation
flags "Incorrect formatting" and multiplies confidence by 0.9. -/
theorem C6_formatting_cex :
    specCheckFormatting "Ố" = true ∧ checkFormatting "Ố" = false ∧
    validateTranslation ([] : Store) "x" "Ố" =
      some { valid := false, issues := ["Incorrect formatting"],
             confidence := mkRat 9 10, suggestions := [],
             similarTerms := none } :=
  ⟨by decide, by decide, by decide⟩

/-- C6 (amended): _check_formatting accepts exactly the non-empty texts
without leading or trailing whitespace, without a double space and made of
whitelist characters only, where the whitelist holds the ASCII letters and
digits, the lower-case Vietnamese diacritic letters, the single upper-case
letter Đ, whitespace, hyphen, period, comma and parentheses (upper-case
diacritic letters other than Đ are rejected); validate_translation appends
"Incorrect formatting" exactly when this check fails. -/
theorem C6_formatting_whitelist :
    (∀ t : String, checkFormatting t = specCheckFormattingA t) ∧
    (∀ (s : Store) (e v : String),
      "Incorrect formatting" ∈ vIssues s e v ↔
        checkFormatting v = false) := by
  constructor
  · intro t
    unfold checkFormatting specCheckFormattingA
    by_cases h1 : t = ""
    · simp [h1]
    · rw [if_neg h1]
      have h1b : (t == "") = false := by simpa using h1
      rw [h1b, Bool.not_false, Bool.true_and]
      by_cases h2 : t = stripStr t
      · rw [if_neg (fun hh => hh h2)]
        have h2b : (t == stripStr t) = true := by simpa using h2
        rw [h2b, Bool.true_and]
        cases h3 : hasDoubleSpace t.toList with
        | true => simp [h3]
        | false =>
          rw [if_neg (by simp [h3]), Bool.not_false, Bool.true_and]
          rw [List.all_eq_not_any_not]
          cases h4 : t.toList.any (fun c => !(allowedChar c)) with
          | true => simp [h4]
          | false => simp [h4]
      · rw [if_pos (fun hh => h2 hh)]
        have h2b : (t == stripStr t) = false := by simpa using h2
        rw [h2b]
        simp
  · intro s e v
    unfold vIssues
    rw [hasMissingDiacritics_false]
    cases hd : dictDiffers s e v <;> cases hf : checkFormatting v <;>
      simp [hf]

/- ## C7 -/

/-- C7: whenever validate_translation returns a result, its confidence is
exactly 1.0 multiplied by 0.7 when the stored current translation differs
case-insensitively from the proposal, by 0.8 when the diacritic check
fires, and by 0.9 when the formatting check fails — each factor governed
solely by its own check, so no check short-circuits another — the valid
flag is true exactly when no check fired, the issues are accumulated in
check order, and the similar-terms enrichment is attached exactly when
get_similar_terms is non-empty, independent of the verdict. The rational
factors equal the float literals: mkRat 7 10 is 7/10, mkRat 8 10 is 4/5,
mkRat 9 10 is 9/10. -/
theorem C7_validator_composition (s : Store) (e v : String) (res : VResult)
    (h : validateTranslation s e v = some res) :
    res.confidence =
      (if dictDiffers s e v then mkRat 7 10 else 1) *
      (if hasMissingDiacritics v then mkRat 8 10 else 1) *
      (if !(checkFormatting v) then mkRat 9 10 else 1) ∧
    res.valid = !(dictDiffers s e v || hasMissingDiacritics v ||
      !(checkFormatting v)) ∧
    res.issues = vIssues s e v ∧
    (res.similarTerms ≠ none ↔ getSimilarTerms s e 5 ≠ []) ∧
    mkRat 7 10 = 7/10 ∧ mkRat 8 10 = 4/5 ∧ mkRat 9 10 = 9/10 := by
  rcases validate_fields h with ⟨h1, h2, h3, _, h5⟩
  refine ⟨h3, h1, h2, ?_, ?_, ?_, ?_⟩
  · constructor
    · intro hne hnil
      exact hne (h5.mpr hnil)
    · intro hne hnone
      exact hne (h5.mp hnone)
  · rw [Rat.mkRat_eq_divInt, Rat.divInt_eq_div]; norm_num
  · rw [Rat.mkRat_eq_divInt, Rat.divInt_eq_div]; norm_num
  · rw [Rat.mkRat_eq_divInt, Rat.divInt_eq_div]; norm_num

/-- C7 witness: the theorem applied to the empty store with the
clean proposal "abc". -/
theorem C7_validator_composition_witness :
    ({ valid := true, issues := [], confidence := 1, suggestions := [],
       similarTerms := none } : VResult).confidence =
      (if dictDiffers [] "x" "abc" then mkRat 7 10 else 1) *
      (if hasMissingDiacritics "abc" then mkRat 8 10 else 1) *
      (if !(checkFormatting "abc") then mkRat 9 10 else 1) ∧
    ({ valid := true, issues := [], confidence := 1, suggestions := [],
       similarTerms := none } : VResult).valid =
      !(dictDiffers [] "x" "abc" || hasMissingDiacritics "abc" ||
        !(checkFormatting "abc")) ∧
    ({ valid := true, issues := [], confidence := 1, suggestions := [],
       similarTerms := none } : VResult).issues = vIssues [] "x" "abc" ∧
    (({ valid := true, issues := [], confidence := 1, suggestions := [],
        similarTerms := none } : VResult).similarTerms ≠ none ↔
      getSimilarTerms [] "x" 5 ≠ []) ∧
    mkRat 7 10 = 7/10 ∧ mkRat 8 10 = 4/5 ∧ mkRat 9 10 = 9/10 :=
  C7_validator_composition [] "x" "abc" _ (by decide)

/- ## C8 -/

theorem mem_storeKeys_storeSet_self (s : Store) (k : String)
    (v : TermRecord) : k ∈ storeKeys (storeSet s k v) := by
  unfold storeKeys storeSet
  by_cases h : s.any (fun p => p.1 == k)
  · rw [if_pos h]
    rcases List.any_eq_true.mp h with ⟨p0, hp0, hp0k⟩
    refine List.mem_map.mpr ⟨(k, v), List.mem_map.mpr ⟨p0, hp0, ?_⟩, rfl⟩
    rw [if_pos hp0k]
  · rw [if_neg h, List.map_append]
    exact List.mem_append.mpr (Or.inr (List.mem_cons_self _ _))

theorem mem_storeKeys_storeSet_mono {s : Store} {k' : String}
    (h : k' ∈ storeKeys s) (k : String) (v : TermRecord) :
    k' ∈ storeKeys (storeSet s k v) := by
  unfold storeKeys storeSet
  unfold storeKeys at h
  by_cases hany : s.any (fun p => p.1 == k)
  · rw [if_pos hany]
    rcases List.mem_map.mp h with ⟨p0, hp0, hp0k⟩
    by_cases hpk : p0.1 == k
    · have : k' = k := by
        rw [← hp0k]
        simpa using hpk
    -- in this case the mapped element is (k, v), whose key is k = k'
      refine List.mem_map.mpr ⟨(k, v), List.mem_map.mpr ⟨p0, hp0, ?_⟩, this.symm ▸ rfl⟩
      rw [if_pos hpk]
    · refine List.mem_map.mpr ⟨p0, List.mem_map.mpr ⟨p0, hp0, ?_⟩, hp0k⟩
      rw [if_neg hpk]
  · rw [if_neg hany, List.map_append]
    exact List.mem_append.mpr (Or.inl h)

theorem mem_storeKeys_importRow {s : Store} {k : String}
    (h : k ∈ storeKeys s) (src : String) (r : Row) (conf : ℚ) :
    k ∈ storeKeys (importRow s src r conf) := by
  unfold importRow
  cases r.english with
  | none => exact h
  | some e =>
    cases r.vietnamese with
    | none => exact h
    | some v =>
      simp only [addTerm]
      exact mem_storeKeys_storeSet_mono h _ _

theorem mem_storeKeys_importCsv {s : Store} {k : String}
    (h : k ∈ storeKeys s) (src : String) (rows : List Row) :
    k ∈ storeKeys (importCsv s src rows) := by
  induction rows generalizing s with
  | nil => exact h
  | cons r rest ih =>
    unfold importCsv
    cases r.confCell with
    | none => exact ih (mem_storeKeys_importRow h src r 1)
    | some c =>
      cases c with
      | none => exact h
      | some q => exact ih (mem_storeKeys_importRow h src r q)

/-- Rows used by the C8 counterexample: a well-formed first row, a second
row whose Confidence cell is present but unparseable, a well-formed third
row. -/
def rowGood1 : Row :=
  { english := some "good1", vietnamese := some "tot1", category := none,
    confCell := none, t1 := 0, t2 := 0, t3 := 0 }

def rowBadConf : Row :=
  { english := some "bad", vietnamese := some "x", category := none,
    confCell := some none, t1 := 0, t2 := 0, t3 := 0 }

def rowGood2 : Row :=
  { english := some "good2", vietnamese := some "tot2", category := none,
    confCell := none, t1 := 0, t2 := 0, t3 := 0 }

/-- The record a clean import of rowGood1 stores. -/
def good1Rec : TermRecord :=
  { vietnamese := "tot1", category := "general", source := "import",
    confidence := 1, added_date := 0, last_updated := 0,
    versions := [{ vietnamese := "tot1", confidence := 1, date := 0,
                   source := "import" }] }

/-- C8 counterexample: in a file of three rows whose second row carries an
unparseable Confidence value, import_csv stops at that row — the first row
is imported, but the second row is not defaulted to confidence 1.0 and the
well-formed third row is never imported, contradicting the claimed
row-level isolation. -/
theorem C8_row_isolation_cex :
    storeGet (importCsv [] "import" [rowGood1, rowBadConf, rowGood2])
      "good1" = some good1Rec ∧
    storeGet (importCsv [] "import" [rowGood1, rowBadConf, rowGood2])
      "bad" = none ∧
    storeGet (importCsv [] "import" [rowGood1, rowBadConf, rowGood2])
      "good2" = none := by
  refine ⟨by decide, by decide, by decide⟩

/-- C8 (amended): a row whose required English or Vietnamese cell is
missing fails alone — add_term catches the error, returns false, and the
rest of the file still imports; an absent Confidence column defaults to
1.0; but a Confidence value that is present and unparseable raises outside
add_term's protection and the handler wrapping the whole loop stops the
import: that row and every later row are dropped, while already-imported
rows are kept. -/
theorem C8_row_isolation :
    (∀ (s : Store) (src : String) (r : Row) (rest : List Row),
      r.confCell = some none → importCsv s src (r :: rest) = s) ∧
    (∀ (s : Store) (src : String) (r : Row) (rest : List Row),
      r.confCell ≠ some none → (r.english = none ∨ r.vietnamese = none) →
      importCsv s src (r :: rest) = importCsv s src rest) ∧
    (∀ (s : Store) (src : String) (r : Row) (rest : List Row) (e v : String),
      r.confCell = none → r.english = some e → r.vietnamese = some v →
      importCsv s src (r :: rest) =
        importCsv (addTerm s e v (r.category.getD "general") src 1
          r.t1 r.t2 r.t3).2 src rest) ∧
    (∀ (s : Store) (src : String) (rows : List Row),
      (∀ r ∈ rows, r.confCell ≠ some none) →
      ∀ r ∈ rows, ∀ e v : String, r.english = some e → r.vietnamese = some v →
        normKey e ∈ storeKeys (importCsv s src rows)) := by
  refine ⟨?_, ?_, ?_, ?_⟩
  · intro s src r rest hc
    simp only [importCsv, hc]
  · intro s src r rest hc hmiss
    have hrow : ∀ conf, importRow s src r conf = s := by
      intro conf
      unfold importRow
      rcases hmiss with h1 | h1
      · rw [h1]
      · rw [h1]
        cases r.english <;> rfl
    cases hcc : r.confCell with
    | none => simp only [importCsv, hcc, hrow]
    | some c =>
      cases c with
      | none => exact absurd hcc hc
      | some q => simp only [importCsv, hcc, hrow]
  · intro s src r rest e v hc he hv
    have hrow : importRow s src r 1 =
        (addTerm s e v (r.category.getD "general") src 1 r.t1 r.t2 r.t3).2 := by
      unfold importRow
      rw [he, hv]
    simp only [importCsv, hc, hrow]
  · intro s src rows hok r hr e v he hv
    induction rows generalizing s with
    | nil => simp at hr
    | cons r0 rest ih =>
      rcases List.mem_cons.mp hr with hr1 | hr1
      · subst hr1
        have hkey : ∀ conf, normKey e ∈ storeKeys (importRow s src r conf) := by
          intro conf
          unfold importRow
          rw [he, hv]
          simp only [addTerm]
          exact mem_storeKeys_storeSet_self _ _ _
        cases hcc : r.confCell with
        | none =>
          simp only [importCsv, hcc]
          exact mem_storeKeys_importCsv (hkey 1) src rest
        | some c =>
          cases c with
          | none => exact absurd hcc (hok r (List.mem_cons_self _ _))
          | some q =>
            simp only [importCsv, hcc]
            exact mem_storeKeys_importCsv (hkey q) src rest
      · have hok2 : ∀ r2 ∈ rest, r2.confCell ≠ some none := by
          intro r2 hr2
          exact hok r2 (List.mem_cons_of_mem _ hr2)
        cases hcc : r0.confCell with
        | none =>
          simp only [importCsv, hcc]
          exact ih _ hok2 hr1
        | some c =>
          cases c with
          | none => exact absurd hcc (hok r0 (List.mem_cons_self _ _))
          | some q =>
            simp only [importCsv, hcc]
            exact ih _ hok2 hr1

/-- C8 witness: the amended parts at concrete rows — the unparseable row
aborts, a row with a missing translation cell fails alone, an absent
confidence column defaults to 1, and the keys of well-formed rows are
present after a clean import. -/
theorem C8_row_isolation_witness :
    importCsv [] "import" [rowBadConf, rowGood1] = [] ∧
    importCsv [] "import"
      [{ english := some "e", vietnamese := none, category := none,
         confCell := none, t1 := 0, t2 := 0, t3 := 0 }, rowGood1] =
      importCsv [] "import" [rowGood1] ∧
    importCsv [] "import" [rowGood1] =
      importCsv (addTerm [] "good1" "tot1" "general" "import" 1 0 0 0).2
        "import" [] ∧
    normKey "good1" ∈ storeKeys (importCsv [] "import" [rowGood1]) := by
  refine ⟨C8_row_isolation.1 [] "import" rowBadConf [rowGood1] rfl,
    C8_row_isolation.2.1 [] "import" _ [rowGood1] (by decide)
      (Or.inr rfl),
    C8_row_isolation.2.2.1 [] "import" rowGood1 [] "good1" "tot1" rfl rfl rfl,
    C8_row_isolation.2.2.2 [] "import" [rowGood1] (by decide) rowGood1
      (by decide) "good1" "tot1" rfl rfl⟩

/- ## C10: normalised keys and lookup safety -/

set_option maxRecDepth 8000 in
theorem lowerPairs_snd_not_key :
    ∀ q ∈ lowerPairs, pairLookup q.2 lowerPairs = none := by decide

theorem lowerChar_idem (c : Char) : lowerChar (lowerChar c) = lowerChar c := by
  cases h : pairLookup c lowerPairs with
  | none =>
    have hc : lowerChar c = c := by unfold lowerChar; rw [h]
    rw [hc, hc]
  | some d =>
    have hm := pairLookup_mem lowerPairs c d h
    have hdnone : pairLookup d lowerPairs = none :=
      lowerPairs_snd_not_key (c, d) hm
    have hc : lowerChar c = d := by unfold lowerChar; rw [h]
    have hd : lowerChar d = d := by unfold lowerChar; rw [hdnone]
    rw [hc, hd]

theorem lowerStr_idem (s : String) : lowerStr (lowerStr s) = lowerStr s := by
  unfold lowerStr
  apply congrArg
  show (s.toList.map lowerChar).map lowerChar = s.toList.map lowerChar
  rw [List.map_map]
  apply List.map_congr_left
  intro c _
  exact lowerChar_idem c

theorem dropWhile_of_head_false {p : Char → Bool} {l : List Char}
    (h : ∀ a, l.head? = some a → p a = false) : l.dropWhile p = l := by
  cases l with
  | nil => rfl
  | cons a t =>
    have := h a rfl
    rw [List.dropWhile_cons_of_neg (by simp [this])]

theorem getLast?_dropWhile_ne {p : Char → Bool} (l : List Char)
    (h : l.dropWhile p ≠ []) :
    (l.dropWhile p).getLast? = l.getLast? := by
  induction l with
  | nil => simp at h
  | cons a t ih =>
    by_cases hp : p a
    · rw [List.dropWhile_cons_of_pos hp] at h ⊢
      have ht : t ≠ [] := by
        intro hnil
        rw [hnil] at h
        simp at h
      rcases List.exists_cons_of_ne_nil ht with ⟨b, u, hbu⟩
      rw [ih h, hbu, List.getLast?_cons_cons]
    · rw [List.dropWhile_cons_of_neg hp]

theorem head?_stripList_false {l : List Char} {a : Char}
    (h : (stripList l).head? = some a) : pySpace a = false := by
  unfold stripList at h
  rw [List.head?_reverse] at h
  by_cases hz : (l.dropWhile pySpace).reverse.dropWhile pySpace = []
  · rw [hz] at h
    simp at h
  · rw [getLast?_dropWhile_ne _ hz, List.getLast?_reverse] at h
    have hA : l.dropWhile pySpace ≠ [] := by
      intro hnil
      rw [hnil] at hz
      simp at hz
    have := List.head?_dropWhile_not pySpace l
    rw [h] at this
    exact this

theorem getLast?_stripList_false {l : List Char} {a : Char}
    (h : (stripList l).getLast? = some a) : pySpace a = false := by
  unfold stripList at h
  rw [List.getLast?_reverse] at h
  have := List.head?_dropWhile_not pySpace (l.dropWhile pySpace).reverse
  rw [h] at this
  exact this

theorem stripList_idem (l : List Char) :
    stripList (stripList l) = stripList l := by
  have h1 : (stripList l).dropWhile pySpace = stripList l :=
    dropWhile_of_head_false (fun a ha => head?_stripList_false ha)
  show (((stripList l).dropWhile pySpace).reverse.dropWhile pySpace).reverse
      = stripList l
  rw [h1]
  have h2 : (stripList l).reverse.dropWhile pySpace = (stripList l).reverse := by
    apply dropWhile_of_head_false
    intro a ha
    rw [List.head?_reverse] at ha
    exact getLast?_stripList_false ha
  rw [h2, List.reverse_reverse]

theorem stripStr_idem (s : String) : stripStr (stripStr s) = stripStr s := by
  unfold stripStr
  apply congrArg
  exact stripList_idem s.toList

theorem normKey_idem (e : String) : normKey (normKey e) = normKey e := by
  show stripStr (lowerStr (stripStr (lowerStr e))) = normKey e
  have hcomm : lowerStr (stripStr (lowerStr e)) =
      stripStr (lowerStr (lowerStr e)) := by
    unfold stripStr lowerStr
    apply congrArg
    exact (stripList_map_lower (lowerStr e).toList).symm
  rw [hcomm, lowerStr_idem, stripStr_idem]
  rfl

/-- Every key of the store is a fixed point of normalisation. -/
def normStore (s : Store) : Prop := ∀ k ∈ storeKeys s, normKey k = k

theorem storeKeys_storeSet_subset {s : Store} {k : String} {v : TermRecord} :
    ∀ k2 ∈ storeKeys (storeSet s k v), k2 = k ∨ k2 ∈ storeKeys s := by
  intro k2 hk2
  unfold storeKeys storeSet at hk2
  by_cases hany : s.any (fun p => p.1 == k)
  · rw [if_pos hany] at hk2
    rcases List.mem_map.mp hk2 with ⟨p0, hp0, hp0k⟩
    rcases List.mem_map.mp hp0 with ⟨p1, hp1, hp1p⟩
    by_cases hpk : p1.1 == k
    · rw [if_pos hpk] at hp1p
      left
      rw [← hp0k, ← hp1p]
    · rw [if_neg hpk] at hp1p
      right
      rw [← hp0k, ← hp1p]
      exact List.mem_map.mpr ⟨p1, hp1, rfl⟩
  · rw [if_neg hany, List.map_append] at hk2
    rcases List.mem_append.mp hk2 with h1 | h1
    · right; exact h1
    · left; simpa using h1

theorem normStore_addTerm {s : Store} (h : normStore s)
    (e v cat src : String) (conf : ℚ) (t1 t2 t3 : Nat) :
    normStore (addTerm s e v cat src conf t1 t2 t3).2 := by
  intro k hk
  simp only [addTerm] at hk
  rcases storeKeys_storeSet_subset k hk with h1 | h1
  · rw [h1]; exact normKey_idem e
  · exact h k h1

theorem normStore_updateTerm {s : Store} (h : normStore s)
    (e v src : String) (conf : ℚ) (tv tu : Nat) :
    normStore (updateTerm s e v src conf tv tu).2 := by
  intro k hk
  simp only [updateTerm] at hk
  cases hg : storeGet s (normKey e) with
  | none => rw [hg] at hk; exact h k hk
  | some r0 =>
    rw [hg] at hk
    rcases storeKeys_storeSet_subset k hk with h1 | h1
    · rw [h1]; exact normKey_idem e
    · exact h k h1

theorem normStore_importCsv {s : Store} (h : normStore s)
    (src : String) (rows : List Row) :
    normStore (importCsv s src rows) := by
  induction rows generalizing s with
  | nil => exact h
  | cons r rest ih =>
    have hrow : ∀ conf, normStore (importRow s src r conf) := by
      intro conf
      unfold importRow
      cases r.english with
      | none => exact h
      | some e =>
        cases r.vietnamese with
        | none => exact h
        | some v => exact normStore_addTerm h _ _ _ _ _ _ _ _
    unfold importCsv
    cases r.confCell with
    | none => exact ih (hrow 1)
    | some c =>
      cases c with
      | none => exact h
      | some q => exact ih (hrow q)

theorem normStore_reachable {s : Store} (h : Reachable s) : normStore s := by
  induction h with
  | empty => intro k hk; simp [storeKeys] at hk
  | add e v cat src conf t1 t2 t3 _ _ _ ih =>
    exact normStore_addTerm ih e v cat src conf t1 t2 t3
  | update e v src conf tv tu _ _ ih =>
    exact normStore_updateTerm ih e v src conf tv tu
  | imp src rows _ _ ih => exact normStore_importCsv ih src rows

theorem storeGet_of_mem_keys {s : Store} {k : String}
    (h : k ∈ storeKeys s) : ∃ r, storeGet s k = some r := by
  induction s with
  | nil => simp [storeKeys] at h
  | cons p t ih =>
    by_cases hp : p.1 == k
    · refine ⟨p.2, ?_⟩
      unfold storeGet
      have hfind : List.find? (fun q : String × TermRecord => q.1 == k)
          (p :: t) = some p := List.find?_cons_of_pos t hp
      rw [hfind]
      rfl
    · have hmem : k ∈ storeKeys t := by
        rcases List.mem_cons.mp (by simpa [storeKeys] using h :
            k ∈ p.1 :: storeKeys t) with h1 | h1
        · exact absurd (by simp [h1]) hp
        · exact h1
      rcases ih hmem with ⟨r, hr⟩
      refine ⟨r, ?_⟩
      unfold storeGet at hr ⊢
      have hfind : List.find? (fun q : String × TermRecord => q.1 == k)
          (p :: t) = List.find? (fun q : String × TermRecord => q.1 == k) t :=
        List.find?_cons_of_neg t hp
      rw [hfind]
      exact hr

theorem getSimilarTerms_mem_keys {s : Store} {term : String} {n : Nat}
    {k : String} {sc : ℚ} (h : (k, sc) ∈ getSimilarTerms s term n) :
    k ∈ storeKeys s := by
  unfold getSimilarTerms at h
  have h2 : (k, sc) ∈ buildMatches (normKey term) (storeKeys s) :=
    mem_sortDesc.mp (List.mem_of_mem_take h)
  rw [buildMatches_eq_filterMap] at h2
  rcases List.mem_filterMap.mp h2 with ⟨k0, hk0, hf⟩
  by_cases hcond : simThreshold < simScore (normKey term) k0
  · rw [if_pos hcond] at hf
    have : k = k0 := congrArg Prod.fst (Option.some_inj.mp hf).symm
    rw [this]
    exact hk0
  · rw [if_neg hcond] at hf
    exact absurd hf (by simp)

theorem getTranslation_of_norm {s : Store} (hn : normStore s) {k : String}
    (hk : k ∈ storeKeys s) : ∃ r, getTranslation s k = some r := by
  rcases storeGet_of_mem_keys hk with ⟨r, hr⟩
  refine ⟨r, ?_⟩
  unfold getTranslation
  rw [hn k hk]
  exact hr

theorem simEntries_isSome {s : Store} (hn : normStore s)
    (l : List (String × ℚ)) (hl : ∀ p ∈ l, p.1 ∈ storeKeys s) :
    (simEntries s l).isSome := by
  induction l with
  | nil => rfl
  | cons p rest ih =>
    obtain ⟨k, sc⟩ := p
    rcases getTranslation_of_norm hn (hl (k, sc) (List.mem_cons_self _ _))
      with ⟨r, hr⟩
    have hrest := ih (fun q hq => hl q (List.mem_cons_of_mem _ hq))
    unfold simEntries
    rw [hr]
    cases hse : simEntries s rest with
    | none => rw [hse] at hrest; simp at hrest
    | some es => rfl

theorem suggestLines_isSome {s : Store} (hn : normStore s)
    (l : List (String × ℚ)) (hl : ∀ p ∈ l, p.1 ∈ storeKeys s) :
    (suggestLines s l).isSome := by
  induction l with
  | nil => rfl
  | cons p rest ih =>
    obtain ⟨k, sc⟩ := p
    rcases getTranslation_of_norm hn (hl (k, sc) (List.mem_cons_self _ _))
      with ⟨r, hr⟩
    have hrest := ih (fun q hq => hl q (List.mem_cons_of_mem _ hq))
    unfold suggestLines
    rw [hr]
    cases hse : suggestLines s rest with
    | none => rw [hse] at hrest; simp at hrest
    | some ls => rfl

/-- C10: starting from the empty store, add_term, update_term and
import_csv keep every stored key a fixed point of normalisation; in any
store with that property every key returned by get_similar_terms is a
stored key on which get_translation returns a record rather than the
not-found signal, and therefore the similar-terms enrichments of
validate_translation and suggest_improvements never dereference a missing
record (both functions return a result instead of raising). -/
theorem C10_similar_lookup_safe :
    (∀ s, Reachable s → normStore s) ∧
    (∀ s, normStore s → ∀ (q : String) (n : Nat) (k : String) (sc : ℚ),
      (k, sc) ∈ getSimilarTerms s q n →
      k ∈ storeKeys s ∧ ∃ r, getTranslation s k = some r) ∧
    (∀ s, normStore s → ∀ e v : String,
      (validateTranslation s e v).isSome ∧
      (suggestImprovements s e v).isSome) := by
  refine ⟨fun s h => normStore_reachable h, ?_, ?_⟩
  · intro s hn q n k sc hmem
    have hk := getSimilarTerms_mem_keys hmem
    exact ⟨hk, getTranslation_of_norm hn hk⟩
  · intro s hn e v
    constructor
    · unfold validateTranslation
      by_cases hs : (getSimilarTerms s e 5).isEmpty
      · rw [if_pos hs]; rfl
      · rw [if_neg hs]
        have hall : ∀ p ∈ getSimilarTerms s e 5, p.1 ∈ storeKeys s := by
          intro p hp
          obtain ⟨k, sc⟩ := p
          exact getSimilarTerms_mem_keys hp
        have := simEntries_isSome hn (getSimilarTerms s e 5) hall
        cases hse : simEntries s (getSimilarTerms s e 5) with
        | none => rw [hse] at this; simp at this
        | some es => rfl
    · unfold suggestImprovements
      by_cases hs : (getSimilarTerms s e 5).isEmpty
      · rw [if_pos hs]; rfl
      · rw [if_neg hs]
        have hall : ∀ p ∈ (getSimilarTerms s e 5).take 3,
            p.1 ∈ storeKeys s := by
          intro p hp
          obtain ⟨k, sc⟩ := p
          exact getSimilarTerms_mem_keys (List.mem_of_mem_take hp)
        have := suggestLines_isSome hn ((getSimilarTerms s e 5).take 3) hall
        cases hse : suggestLines s ((getSimilarTerms s e 5).take 3) with
        | none => rw [hse] at this; simp at this
        | some ls => rfl

/-- C10 witness: the safety statement at the one-term store built by a
concrete add_term, queried with its own key. -/
theorem C10_similar_lookup_safe_witness :
    ("fever" ∈ storeKeys (addTerm [] "fever" "sot" "general" "manual"
        1 0 0 0).2 ∧
      ∃ r, getTranslation (addTerm [] "fever" "sot" "general" "manual"
        1 0 0 0).2 "fever" = some r) ∧
    (validateTranslation (addTerm [] "fever" "sot" "general" "manual"
      1 0 0 0).2 "x" "y").isSome ∧
    (suggestImprovements (addTerm [] "fever" "sot" "general" "manual"
      1 0 0 0).2 "x" "y").isSome := by
  have hre : Reachable (addTerm [] "fever" "sot" "general" "manual"
      1 0 0 0).2 :=
    Reachable.add "fever" "sot" "general" "manual" 1 0 0 0 Reachable.empty
      (Nat.le_refl 0) (Nat.le_refl 0)
  have hn := C10_similar_lookup_safe.1 _ hre
  exact ⟨C10_similar_lookup_safe.2.1 _ hn "fever" 5 "fever" 1 (by decide),
    (C10_similar_lookup_safe.2.2 _ hn "x" "y").1,
    (C10_similar_lookup_safe.2.2 _ hn "x" "y").2⟩
